import Mathlib

/-!
Verification development for the NVTabular tabular feature-engineering and
data-loading core exercised by the Rossmann example notebooks.

The library components (Workflow fit/apply, the Categorify / Normalize
operators, statistics checkpointing, the batch loader) are embedded
shallowly below; the notebook-level code (final-column materialization and
the label-removal loop) is translated directly from the notebook source.
-/

namespace NVTabular

/-! ### Categorify: vocabulary fitting and encoding -/

/-- Modelled from the spec: the `Categorify` operator's incremental
vocabulary accumulation (the operator implementation is not part of the
example sources).  A raw value is appended to the fitted vocabulary the
first time it is seen; later occurrences leave the vocabulary unchanged. -/
def vocabInsert {α : Type} [DecidableEq α] (vocab : List α) (v : α) : List α :=
  if v ∈ vocab then vocab else vocab ++ [v]

/-- Modelled from the spec: fitting the `Categorify` vocabulary over one
chunk of raw values, starting from an already-accumulated vocabulary. -/
def fitChunk {α : Type} [DecidableEq α] (vocab : List α) (chunk : List α) : List α :=
  chunk.foldl vocabInsert vocab

/-- Modelled from the spec: the `Categorify` fit pass over a chunked
dataset, accumulating the vocabulary chunk by chunk in reader order. -/
def categorify_fit {α : Type} [DecidableEq α] (chunks : List (List α)) : List α :=
  chunks.foldl fitChunk []

/-- Modelled from the spec: the `Categorify` encoding of one raw value
against a fitted vocabulary.  Fitted values get their first-seen position
shifted by one; index 0 is the reserved unknown slot, returned for any
value absent from the vocabulary. -/
def encode {α : Type} [DecidableEq α] (vocab : List α) (v : α) : ℕ :=
  if v ∈ vocab then vocab.indexOf v + 1 else 0

/-- Modelled from the spec: the `Categorify` apply pass over one chunk,
mapping every raw value to its vocabulary index. -/
def categorify_apply {α : Type} [DecidableEq α] (vocab : List α) (chunk : List α) : List ℕ :=
  chunk.map (encode vocab)

theorem mem_vocabInsert {α : Type} [DecidableEq α] (vocab : List α) (v x : α) :
    x ∈ vocabInsert vocab v ↔ x ∈ vocab ∨ x = v := by
  unfold vocabInsert
  by_cases h : v ∈ vocab
  · simp only [if_pos h]
    constructor
    · exact fun hx => Or.inl hx
    · rintro (hx | rfl) <;> assumption
  · simp [if_neg h, List.mem_append]

theorem fitChunk_cons {α : Type} [DecidableEq α] (vocab : List α) (a : α) (l : List α) :
    fitChunk vocab (a :: l) = fitChunk (vocabInsert vocab a) l := rfl

theorem mem_fitChunk {α : Type} [DecidableEq α] (chunk : List α) (vocab : List α) (x : α) :
    x ∈ fitChunk vocab chunk ↔ x ∈ vocab ∨ x ∈ chunk := by
  induction chunk generalizing vocab with
  | nil => simp [fitChunk]
  | cons a l ih =>
      rw [fitChunk_cons, ih (vocabInsert vocab a), mem_vocabInsert]
      simp only [List.mem_cons]
      tauto

theorem fitChunk_append {α : Type} [DecidableEq α] (vocab : List α) (l₁ l₂ : List α) :
    fitChunk vocab (l₁ ++ l₂) = fitChunk (fitChunk vocab l₁) l₂ := by
  simp [fitChunk, List.foldl_append]

/-- Fitting chunk-by-chunk is the same as fitting the concatenated stream:
the per-chunk vocabulary fold refolds into a single fold over the
flattened dataset. -/
theorem categorify_fit_flatten {α : Type} [DecidableEq α] (chunks : List (List α)) :
    categorify_fit chunks = fitChunk [] chunks.flatten := by
  suffices h : ∀ (vocab : List α), chunks.foldl fitChunk vocab = fitChunk vocab chunks.flatten by
    exact h []
  induction chunks with
  | nil => intro vocab; simp [fitChunk]
  | cons c cs ih =>
      intro vocab
      simp only [List.foldl_cons, List.flatten_cons]
      rw [fitChunk_append, ih (fitChunk vocab c)]

/-- The accumulated vocabulary is only ever extended on the right: fitting
more data never disturbs already-assigned positions. -/
theorem fitChunk_prefix {α : Type} [DecidableEq α] (chunk : List α) (vocab : List α) :
    ∃ suffix, fitChunk vocab chunk = vocab ++ suffix := by
  induction chunk generalizing vocab with
  | nil => exact ⟨[], by simp [fitChunk]⟩
  | cons a l ih =>
      rcases ih (vocabInsert vocab a) with ⟨s, hs⟩
      rw [fitChunk_cons, hs]
      by_cases h : a ∈ vocab
      · exact ⟨s, by simp [vocabInsert, h]⟩
      · exact ⟨a :: s, by simp [vocabInsert, h]⟩

theorem not_mem_fitChunk {α : Type} [DecidableEq α] {chunk : List α} {vocab : List α} {v : α}
    (hv : v ∉ vocab) (hc : v ∉ chunk) : v ∉ fitChunk vocab chunk := by
  rw [mem_fitChunk]
  rintro (h | h) <;> [exact hv h; exact hc h]

theorem encode_append_firstSeen {α : Type} [DecidableEq α]
    (vocab s : List α) (v : α) (hnv : v ∉ vocab) :
    encode ((vocab ++ [v]) ++ s) v = vocab.length + 1 := by
  have hvmem : v ∈ vocab ++ [v] := by simp
  unfold encode
  rw [if_pos (List.mem_append_left s hvmem)]
  rw [List.indexOf_append_of_mem hvmem]
  rw [List.indexOf_append_of_not_mem hnv]
  simp [List.indexOf_cons_self]

/-- First-seen index characterization: a value's encoded index is one more
than the number of distinct values accumulated before its first
occurrence in the stream. -/
theorem encode_fitChunk_firstSeen {α : Type} [DecidableEq α]
    (stream : List α) (vocab : List α) (v : α)
    (hnv : v ∉ vocab) (hmem : v ∈ stream) :
    encode (fitChunk vocab stream) v
      = (fitChunk vocab (stream.takeWhile (· ≠ v))).length + 1 := by
  induction stream generalizing vocab with
  | nil => exact absurd hmem (List.not_mem_nil v)
  | cons a l ih =>
      by_cases hav : a = v
      · subst hav
        have htake : (a :: l).takeWhile (· ≠ a) = [] := by
          simp [List.takeWhile_cons]
        rw [htake]
        have hins : vocabInsert vocab a = vocab ++ [a] := by
          simp [vocabInsert, hnv]
        rcases fitChunk_prefix l (vocab ++ [a]) with ⟨s, hs⟩
        rw [fitChunk_cons, hins, hs, encode_append_firstSeen vocab s a hnv]
        simp [fitChunk]
      · have htake : (a :: l).takeWhile (· ≠ v) = a :: l.takeWhile (· ≠ v) := by
          simp [List.takeWhile_cons, hav]
        have hmem' : v ∈ l := by
          rcases List.mem_cons.mp hmem with h | h
          · exact absurd h.symm hav
          · exact h
        have hnv' : v ∉ vocabInsert vocab a := by
          rw [mem_vocabInsert]
          rintro (h | h)
          · exact hnv h
          · exact hav h.symm
        rw [htake, fitChunk_cons, fitChunk_cons, ih (vocabInsert vocab a) hnv' hmem']

/-- The `StoreType` scenario from the spec: raw values a, b, a, c split
across two chunks of size two. -/
def rossChunks : List (List String) := [["a", "b"], ["a", "c"]]

/-- The vocabulary fitted over the `StoreType` scenario chunks. -/
def rossVocab : List String := categorify_fit rossChunks

/-- The fresh apply-time chunk from the spec scenario: a known value and a
value never seen during fit. -/
def rossApplyChunk : List String := ["a", "d"]

/-- Claim C2: Categorify assigns vocabulary indices in first-seen order
starting at 1 (a fitted value's index is one more than the number of
distinct values first seen before it), index 0 is reserved for unknown
(any value absent from the fitted vocabulary encodes to 0 without
failing), apply deterministically maps each value through the same
encoding on every call, and on the concrete scenario the fit over chunks
[[a,b],[a,c]] yields vocabulary a=1, b=2, c=3 with unknown=0, and
applying to [a,d] yields [1, 0]. -/
theorem claim_C2 :
    (∀ (chunks : List (List String)) (v : String), v ∈ chunks.flatten →
        encode (categorify_fit chunks) v
          = (fitChunk [] (chunks.flatten.takeWhile (· ≠ v))).length + 1)
    ∧ (∀ (chunks : List (List String)) (v : String), v ∉ categorify_fit chunks →
        encode (categorify_fit chunks) v = 0)
    ∧ (∀ (vocab chunk : List String), categorify_apply vocab chunk = chunk.map (encode vocab))
    ∧ rossVocab = ["a", "b", "c"]
    ∧ encode rossVocab ("a") = 1
    ∧ encode rossVocab ("b") = 2
    ∧ encode rossVocab ("c") = 3
    ∧ encode rossVocab ("d") = 0
    ∧ categorify_apply rossVocab rossApplyChunk = [1, 0] := by
  refine ⟨?_, ?_, ?_, by decide, by decide, by decide, by decide, by decide, by decide⟩
  · intro chunks v hv
    rw [categorify_fit_flatten]
    exact encode_fitChunk_firstSeen chunks.flatten [] v (List.not_mem_nil v) hv
  · intro chunks v hv
    simp [encode, hv]
  · intro vocab chunk
    rfl

/-- Witness for claim C2 at the concrete scenario: the never-seen value d
encodes to the reserved unknown index 0. -/
theorem claim_C2_witness : encode rossVocab ("d") = 0 :=
  claim_C2.2.1 rossChunks ("d") (by decide)

/-! ### Continuous statistics: accumulation and merge -/

/-- Modelled from the spec: the per-column sufficient statistics for
`Normalize` (running count, running sum, running sum of squares), the
online accumulator that replaces batch mean-of-means; the operator and
accumulator implementations are not part of the example sources. -/
@[ext] structure NumStats where
  count : ℕ
  total : ℚ
  sumSq : ℚ
deriving DecidableEq

/-- Modelled from the spec: the empty accumulator, before any chunk. -/
def NumStats.empty : NumStats := ⟨0, 0, 0⟩

/-- Modelled from the spec: folding one observed value into the running
sufficient statistics. -/
def NumStats.addValue (s : NumStats) (x : ℚ) : NumStats :=
  ⟨s.count + 1, s.total + x, s.sumSq + x * x⟩

/-- Modelled from the spec: merging the sufficient statistics of two
disjoint sub-datasets (the per-column chunk merge). -/
def NumStats.merge (a b : NumStats) : NumStats :=
  ⟨a.count + b.count, a.total + b.total, a.sumSq + b.sumSq⟩

/-- Modelled from the spec: the mean derived from accumulated statistics. -/
def NumStats.mean (s : NumStats) : ℚ := s.total / s.count

/-- Modelled from the spec: the variance derived from accumulated
statistics. -/
def NumStats.variance (s : NumStats) : ℚ := s.sumSq / s.count - s.mean ^ 2

/-- Modelled from the spec: fitting the statistics of one chunk. -/
def fitNumChunk (chunk : List ℚ) : NumStats :=
  chunk.foldl NumStats.addValue NumStats.empty

/-- Modelled from the spec: the fit pass over a chunked continuous column,
merging per-chunk statistics in chunk order. -/
def fitNum (chunks : List (List ℚ)) : NumStats :=
  chunks.foldl (fun acc c => acc.merge (fitNumChunk c)) NumStats.empty

theorem NumStats.merge_assoc (a b c : NumStats) :
    (a.merge b).merge c = a.merge (b.merge c) := by
  ext <;> simp [NumStats.merge, Nat.add_assoc, add_assoc]

theorem NumStats.merge_comm (a b : NumStats) : a.merge b = b.merge a := by
  ext <;> simp [NumStats.merge, Nat.add_comm, add_comm]

theorem NumStats.merge_empty_left (s : NumStats) : NumStats.empty.merge s = s := by
  ext <;> simp [NumStats.merge, NumStats.empty]

theorem NumStats.merge_empty_right (s : NumStats) : s.merge NumStats.empty = s := by
  ext <;> simp [NumStats.merge, NumStats.empty]

theorem NumStats.addValue_merge (a b : NumStats) (x : ℚ) :
    (a.merge b).addValue x = a.merge (b.addValue x) := by
  ext <;> simp [NumStats.merge, NumStats.addValue, Nat.add_assoc, add_assoc]

theorem foldl_addValue_merge (l : List ℚ) (a b : NumStats) :
    l.foldl NumStats.addValue (a.merge b) = a.merge (l.foldl NumStats.addValue b) := by
  induction l generalizing b with
  | nil => rfl
  | cons x xs ih =>
      simp only [List.foldl_cons, NumStats.addValue_merge, ih]

theorem fitNumChunk_append (l₁ l₂ : List ℚ) :
    fitNumChunk (l₁ ++ l₂) = (fitNumChunk l₁).merge (fitNumChunk l₂) := by
  unfold fitNumChunk
  rw [List.foldl_append, ← foldl_addValue_merge, NumStats.merge_empty_right]

theorem fitNum_flatten (chunks : List (List ℚ)) :
    fitNum chunks = fitNumChunk chunks.flatten := by
  suffices h : ∀ s : NumStats,
      chunks.foldl (fun acc c => acc.merge (fitNumChunk c)) s
        = s.merge (fitNumChunk chunks.flatten) by
    rw [fitNum, h NumStats.empty, NumStats.merge_empty_left]
  induction chunks with
  | nil => intro s; exact (NumStats.merge_empty_right s).symm
  | cons c cs ih =>
      intro s
      simp only [List.foldl_cons, List.flatten_cons]
      rw [ih (s.merge (fitNumChunk c)), fitNumChunk_append, NumStats.merge_assoc]

/-- Claim C4: the per-column statistics merge is associative and
commutative, so fitting over one chunk and fitting over N chunks of
arbitrary sizes yield the same StatisticsRecord: numeric sufficient
statistics (hence mean and variance) agree exactly, and the fitted
vocabulary of a chunked dataset has exactly the values of the flattened
dataset (insertion order matches the chunk-order stream). -/
theorem claim_C4 :
    (∀ a b c : NumStats, (a.merge b).merge c = a.merge (b.merge c))
    ∧ (∀ a b : NumStats, a.merge b = b.merge a)
    ∧ (∀ chunks : List (List ℚ), fitNum chunks = fitNumChunk chunks.flatten)
    ∧ (∀ chunks : List (List ℚ),
        (fitNum chunks).mean = (fitNumChunk chunks.flatten).mean
          ∧ (fitNum chunks).variance = (fitNumChunk chunks.flatten).variance)
    ∧ (∀ chunks : List (List String), categorify_fit chunks = fitChunk [] chunks.flatten)
    ∧ (∀ (chunks : List (List String)) (v : String),
        v ∈ categorify_fit chunks ↔ v ∈ chunks.flatten) := by
  refine ⟨NumStats.merge_assoc, NumStats.merge_comm, fitNum_flatten, ?_, ?_, ?_⟩
  · intro chunks
    rw [fitNum_flatten]
    exact ⟨rfl, rfl⟩
  · exact fun chunks => categorify_fit_flatten chunks
  · intro chunks v
    rw [categorify_fit_flatten, mem_fitChunk]
    simp

/-! ### Normalize -/

/-- Modelled from the spec: the small positive constant guarding the
`Normalize` divisor on zero-variance columns (the operator implementation
is not part of the example sources). -/
def epsilon : ℚ := 1 / 1000000000

/-- Modelled from the spec: the `Normalize` transform of one value given
the fitted mean and standard deviation, `(x - mean) / max(stddev, epsilon)`. -/
def normalize (x mean std : ℚ) : ℚ := (x - mean) / max std epsilon

/-- Claim C8: Normalize maps x to (x - mean) / max(stddev, epsilon), so it
is total even on zero-variance columns (at stddev 0 it divides by
epsilon), and for stddev sigma > 0 the round trip holds: v' = (v - mu) /
sigma satisfies v' * sigma + mu = v, with the transform itself agreeing
with (v - mu) / sigma whenever sigma is at least epsilon. -/
theorem claim_C8 :
    (∀ x m s : ℚ, normalize x m s = (x - m) / max s epsilon)
    ∧ (∀ v m s : ℚ, 0 < s → (v - m) / s * s + m = v)
    ∧ (∀ v m s : ℚ, epsilon ≤ s → normalize v m s = (v - m) / s)
    ∧ (∀ v m s : ℚ, epsilon ≤ s → normalize v m s * s + m = v)
    ∧ (∀ v m : ℚ, normalize v m 0 = (v - m) / epsilon) := by
  have heps : (0 : ℚ) < epsilon := by norm_num [epsilon]
  have hround : ∀ v m s : ℚ, 0 < s → (v - m) / s * s + m = v := by
    intro v m s hs
    rw [div_mul_cancel₀ (v - m) hs.ne']
    ring
  have hagree : ∀ v m s : ℚ, epsilon ≤ s → normalize v m s = (v - m) / s := by
    intro v m s hs
    rw [normalize, max_eq_left hs]
  refine ⟨fun x m s => rfl, hround, hagree, ?_, ?_⟩
  · intro v m s hs
    rw [hagree v m s hs]
    exact hround v m s (lt_of_lt_of_le heps hs)
  · intro v m
    rw [normalize, max_eq_right heps.le]

/-- Witness for claim C8 at v = 3, mean = 1, stddev = 2: the transformed
value scaled back by the stddev and shifted by the mean recovers v. -/
theorem claim_C8_witness : normalize 3 1 2 * 2 + 1 = 3 :=
  claim_C8.2.2.2.1 3 1 2 (by norm_num [epsilon])

/-! ### Column schema and the notebook's label-removal loop -/

/-- The nested column context the notebooks read back
(columns_ctx of the final stage), typed: the categorical, continuous and
label column-name lists of the finalized output schema. -/
@[ext] structure ColumnsCtx where
  categorical : List String
  continuous : List String
  label : List String
deriving DecidableEq

/-- Python's `list.remove`, as used by the notebook cell that strips the
label column: removes the first occurrence of the value, leaves the list
unchanged when the value is absent (the raised ValueError ends the
enclosing loop). -/
def removeFirst (l : List String) (v : String) : List String :=
  match l with
  | [] => []
  | x :: xs => if x = v then xs else x :: removeFirst xs v

/-- The notebook's `while True: remove until ValueError` loop, with fuel
bounded by the list length: keeps removing the first occurrence of the
label while one is present. -/
def removeLoopAux (v : String) : ℕ → List String → List String
  | 0, l => l
  | fuel + 1, l => if v ∈ l then removeLoopAux v fuel (removeFirst l v) else l

/-- The notebook's label-stripping loop over a continuous-column list. -/
def removeLabelLoop (l : List String) (v : String) : List String :=
  removeLoopAux v l.length l

/-- Modelled from the spec: `create_final_cols` materializes the final
output schema snapshot from the per-kind column lists accumulated during
processing (the Workflow implementation is not part of the example
sources). -/
def create_final_cols (cats conts labels : List String) : ColumnsCtx :=
  ⟨cats, conts, labels⟩

/-- The finalized schema as the notebook leaves it: the final column
context with every occurrence of the label column stripped from the
continuous list by the removal loop. -/
def finalizedCtx (ctx : ColumnsCtx) (label : String) : ColumnsCtx :=
  ⟨ctx.categorical, removeLabelLoop ctx.continuous label, ctx.label⟩

theorem length_removeFirst_of_mem {l : List String} {v : String} (h : v ∈ l) :
    (removeFirst l v).length + 1 = l.length := by
  induction l with
  | nil => exact absurd h (List.not_mem_nil v)
  | cons x xs ih =>
      by_cases hx : x = v
      · simp [removeFirst, hx]
      · have hmem : v ∈ xs := by
          rcases List.mem_cons.mp h with h' | h'
          · exact absurd h'.symm hx
          · exact h'
        simp [removeFirst, hx, ih hmem]

theorem filter_removeFirst (l : List String) (v : String) :
    (removeFirst l v).filter (· ≠ v) = l.filter (· ≠ v) := by
  induction l with
  | nil => rfl
  | cons x xs ih =>
      by_cases hx : x = v
      · have h1 : removeFirst (x :: xs) v = xs := by simp [removeFirst, hx]
        rw [h1, List.filter_cons]
        simp [hx]
      · have h1 : removeFirst (x :: xs) v = x :: removeFirst xs v := by
          simp [removeFirst, hx]
        rw [h1, List.filter_cons, List.filter_cons, ih]

theorem removeLoopAux_eq_filter (v : String) (fuel : ℕ) (l : List String)
    (hfuel : l.length ≤ fuel) : removeLoopAux v fuel l = l.filter (· ≠ v) := by
  induction fuel generalizing l with
  | zero =>
      have : l = [] := List.length_eq_zero.mp (Nat.le_zero.mp hfuel)
      subst this
      rfl
  | succ fuel ih =>
      by_cases hv : v ∈ l
      · have hlen : (removeFirst l v).length ≤ fuel := by
          have := length_removeFirst_of_mem hv
          omega
        rw [removeLoopAux, if_pos hv, ih (removeFirst l v) hlen, filter_removeFirst]
      · rw [removeLoopAux, if_neg hv]
        symm
        apply List.filter_eq_self.mpr
        intro x hx
        simp only [decide_eq_true_eq]
        intro hxv
        exact hv (hxv ▸ hx)

theorem removeLabelLoop_eq_filter (l : List String) (v : String) :
    removeLabelLoop l v = l.filter (· ≠ v) :=
  removeLoopAux_eq_filter v l.length l le_rfl

/-- Claim C5: stripping the label after final schema materialization
removes every occurrence of the label from the finalized continuous list
(the loop removes occurrences until none is left, however many duplicates
the transform phase inserted), keeps every other continuous column with
its multiplicity, and leaves the categorical and label lists untouched, so
the label survives only in the label list. -/
theorem claim_C5 :
    (∀ (conts : List String) (label : String),
        removeLabelLoop conts label = conts.filter (· ≠ label))
    ∧ (∀ (conts : List String) (label : String), label ∉ removeLabelLoop conts label)
    ∧ (∀ (conts : List String) (label c : String), c ≠ label →
        ((c ∈ removeLabelLoop conts label) ↔ c ∈ conts))
    ∧ (∀ (conts : List String) (label c : String), c ≠ label →
        (removeLabelLoop conts label).count c = conts.count c)
    ∧ (∀ (ctx : ColumnsCtx) (label : String),
        label ∉ (finalizedCtx ctx label).continuous
          ∧ (finalizedCtx ctx label).categorical = ctx.categorical
          ∧ (finalizedCtx ctx label).label = ctx.label) := by
  have hnotmem : ∀ (conts : List String) (label : String),
      label ∉ removeLabelLoop conts label := by
    intro conts label hmem
    rw [removeLabelLoop_eq_filter] at hmem
    have := List.of_mem_filter hmem
    simp at this
  refine ⟨removeLabelLoop_eq_filter, hnotmem, ?_, ?_, ?_⟩
  · intro conts label c hc
    rw [removeLabelLoop_eq_filter]
    constructor
    · exact fun h => List.mem_of_mem_filter h
    · intro h
      apply List.mem_filter.mpr
      exact ⟨h, by simpa using hc⟩
  · intro conts label c hc
    rw [removeLabelLoop_eq_filter]
    exact List.count_filter (by simpa using hc)
  · intro ctx label
    exact ⟨hnotmem ctx.continuous label, rfl, rfl⟩

/-- Witness for claim C5 on a concrete schema: a non-label continuous
column keeps its multiplicity after the removal loop. -/
theorem claim_C5_witness :
    (removeLabelLoop ["CompetitionDistance", "Sales", "trend", "Sales"] ("Sales")).count ("trend")
      = (["CompetitionDistance", "Sales", "trend", "Sales"] : List String).count ("trend") :=
  claim_C5.2.2.2.1 (["CompetitionDistance", "Sales", "trend", "Sales"]) ("Sales") ("trend")
    (by decide)

/-! ### BatchAssembler -/

/-- Modelled from the spec: one transformed row, with its categorical
index group, continuous value group and label (the loader implementation,
`TorchAsyncItr`, is not part of the example sources). -/
structure Row where
  cats : List ℕ
  conts : List ℚ
  label : ℚ
deriving DecidableEq

/-- Modelled from the spec: one delivered batch, three row-aligned tensor
groups (categorical indices, continuous values, labels). -/
structure Batch where
  cats : List (List ℕ)
  conts : List (List ℚ)
  labels : List ℚ
deriving DecidableEq

/-- Modelled from the spec: converting a slice of rows into the three
column-group tensors of a batch. -/
def makeBatch (rows : List Row) : Batch :=
  ⟨rows.map Row.cats, rows.map Row.conts, rows.map Row.label⟩

/-- Splitting a row stream into consecutive slices of the target batch
size, with fuel bounded by the stream length. -/
def chunkListAux {α : Type} (B : ℕ) : ℕ → List α → List (List α)
  | 0, _ => []
  | _ + 1, [] => []
  | fuel + 1, x :: xs => (x :: xs).take B :: chunkListAux B fuel ((x :: xs).drop B)

/-- Modelled from the spec: the slicing of the full transformed row stream
into batch-sized slices, in stream order. -/
def chunkList {α : Type} (B : ℕ) (l : List α) : List (List α) :=
  chunkListAux B l.length l

/-- Modelled from the spec: the `BatchAssembler` traversal, producing the
batch sequence from the transformed rows. -/
def assembleBatches (B : ℕ) (rows : List Row) : List Batch :=
  (chunkList B rows).map makeBatch

/-- The expected batch-size profile of a traversal: full batches of the
target size followed by the remainder batch when the row count does not
divide evenly. -/
def batchSizes (B R : ℕ) : List ℕ :=
  List.replicate (R / B) B ++ (if R % B = 0 then [] else [R % B])

theorem batchSizes_zero (B : ℕ) : batchSizes B 0 = [] := by
  simp [batchSizes, Nat.zero_div, Nat.zero_mod]

theorem chunkListAux_map_length {α : Type} (B : ℕ) (hB : 0 < B) (fuel : ℕ) :
    ∀ l : List α, l.length ≤ fuel →
      (chunkListAux B fuel l).map List.length = batchSizes B l.length := by
  induction fuel with
  | zero =>
      intro l hl
      have : l = [] := List.length_eq_zero.mp (Nat.le_zero.mp hl)
      subst this
      simp [chunkListAux, batchSizes_zero]
  | succ fuel ih =>
      intro l hl
      cases l with
      | nil => simp [chunkListAux, batchSizes_zero]
      | cons x xs =>
          cases B with
          | zero => exact absurd hB (by omega)
          | succ k =>
              have hstep : chunkListAux (k + 1) (fuel + 1) (x :: xs)
                  = (x :: xs).take (k + 1) :: chunkListAux (k + 1) fuel ((x :: xs).drop (k + 1)) := rfl
              have hdlen : ((x :: xs).drop (k + 1)).length = (x :: xs).length - (k + 1) := by
                simp [List.length_drop]
              have hfuel : ((x :: xs).drop (k + 1)).length ≤ fuel := by
                rw [hdlen]
                have := hl
                simp only [List.length_cons] at this ⊢
                omega
              rw [hstep, List.map_cons, ih _ hfuel, hdlen, List.length_take]
              set R := (x :: xs).length with hR
              have hRpos : 0 < R := by simp [hR]
              by_cases hlt : R < k + 1
              · have hmin : min (k + 1) R = R := by omega
                have hsub : R - (k + 1) = 0 := by omega
                rw [hmin, hsub, batchSizes_zero]
                unfold batchSizes
                rw [Nat.div_eq_of_lt hlt, Nat.mod_eq_of_lt hlt]
                simp [hRpos.ne']
              · have hle : k + 1 ≤ R := by omega
                have hmin : min (k + 1) R = k + 1 := by omega
                rw [hmin]
                unfold batchSizes
                rw [Nat.div_eq_sub_div (by omega) hle, Nat.mod_eq_sub_mod hle]
                rw [List.replicate_succ, List.cons_append]

/-- A fixed seven-row stream of trivially-valued rows, for the spec's
concrete batch-size scenario. -/
def sevenRows : List Row := List.replicate 7 ⟨[], [], 0⟩

/-- Claim C6: every assembled batch has its categorical, continuous and
label groups row-aligned; the batch-size profile of a traversal of R rows
with target size B is full batches of size B followed by one batch of R
mod B rows when R mod B is nonzero; and batch size 3 over 7 rows yields
sizes [3, 3, 1] in order. -/
theorem claim_C6 :
    (∀ (B : ℕ) (rows : List Row), 0 < B →
        (assembleBatches B rows).map (fun b => b.labels.length) = batchSizes B rows.length)
    ∧ (∀ (B : ℕ) (rows : List Row) (b : Batch), b ∈ assembleBatches B rows →
        b.cats.length = b.labels.length ∧ b.conts.length = b.labels.length)
    ∧ (assembleBatches 3 sevenRows).map (fun b => b.labels.length) = [3, 3, 1] := by
  refine ⟨?_, ?_, by decide⟩
  · intro B rows hB
    have h := chunkListAux_map_length B hB rows.length rows le_rfl
    unfold assembleBatches chunkList
    rw [List.map_map]
    have hfun : (fun b => b.labels.length) ∘ makeBatch = List.length := by
      funext c
      simp [makeBatch]
    rw [hfun, h]
  · intro B rows b hb
    rcases List.mem_map.mp hb with ⟨c, _, rfl⟩
    simp [makeBatch]

/-- Witness for claim C6: the batch-size profile at target size 3 over the
seven-row stream. -/
theorem claim_C6_witness :
    (assembleBatches 3 sevenRows).map (fun b => b.labels.length) = batchSizes 3 sevenRows.length :=
  claim_C6.1 3 sevenRows (by decide)

/-! ### AsyncPrefetchLoader producer-consumer machine -/

/-- Modelled from the spec: the state of the bounded-buffer
producer/consumer pipeline wrapping the assembler — batches not yet
produced (in assembler order), the bounded prefetch queue, and the batches
already delivered to the consumer (the loader implementation is not part
of the example sources). -/
structure LoaderState (α : Type) where
  pending : List α
  queue : List α
  consumed : List α
deriving DecidableEq

/-- Modelled from the spec: one scheduling step of the prefetch loader.
The producer may stage the next batch while the queue is below capacity;
the consumer's blocking next-batch call dequeues the oldest staged batch.
Any interleaving of these two moves is a valid schedule. -/
inductive LoaderStep {α : Type} (cap : ℕ) : LoaderState α → LoaderState α → Prop
  | produce (b : α) (pending queue consumed : List α) (h : queue.length < cap) :
      LoaderStep cap ⟨b :: pending, queue, consumed⟩ ⟨pending, queue ++ [b], consumed⟩
  | consume (b : α) (pending queue consumed : List α) :
      LoaderStep cap ⟨pending, b :: queue, consumed⟩ ⟨pending, queue, consumed ++ [b]⟩

theorem LoaderStep.trace_eq {α : Type} {cap : ℕ} {s t : LoaderState α}
    (h : LoaderStep cap s t) :
    t.consumed ++ t.queue ++ t.pending = s.consumed ++ s.queue ++ s.pending := by
  cases h with
  | produce b pending queue consumed hq => simp
  | consume b pending queue consumed => simp

theorem loader_reach_trace {α : Type} {cap : ℕ} {init s : LoaderState α}
    (h : Relation.ReflTransGen (LoaderStep cap) init s) :
    s.consumed ++ s.queue ++ s.pending = init.consumed ++ init.queue ++ init.pending := by
  induction h with
  | refl => rfl
  | tail _ hstep ih => rw [LoaderStep.trace_eq hstep, ih]

/-- A one-row stream, for the loader witness schedule. -/
def oneRow : List Row := [⟨[], [], 0⟩]

/-- Claim C7: under any schedule of the bounded prefetch loader started on
the assembler's batch sequence, the consumed sequence is at every moment a
prefix of the synchronous assembly sequence (no reorder, no skip, no
duplicate), and a schedule that exhausts both the producer and the queue
has delivered exactly the synchronous sequence, batch for batch. -/
theorem claim_C7 :
    ∀ (cap B : ℕ) (rows : List Row) (s : LoaderState Batch),
      Relation.ReflTransGen (LoaderStep cap) ⟨assembleBatches B rows, [], []⟩ s →
        (∃ rest, s.consumed ++ rest = assembleBatches B rows)
        ∧ (s.pending = [] → s.queue = [] → s.consumed = assembleBatches B rows) := by
  intro cap B rows s h
  have htr := loader_reach_trace h
  simp only [List.nil_append] at htr
  constructor
  · exact ⟨s.queue ++ s.pending, by rw [← List.append_assoc, htr]⟩
  · intro h1 h2
    rw [h1, h2] at htr
    simpa using htr

/-- Witness for claim C7: a produce-then-consume schedule with queue
capacity 1 over a single-batch traversal delivers exactly that batch. -/
theorem claim_C7_witness :
    (⟨[], [], [makeBatch oneRow]⟩ : LoaderState Batch).consumed = assembleBatches 1 oneRow :=
  (claim_C7 1 1 oneRow ⟨[], [], [makeBatch oneRow]⟩
    (Relation.ReflTransGen.head
      (LoaderStep.produce (makeBatch oneRow) [] [] [] (by decide))
      (Relation.ReflTransGen.head
        (LoaderStep.consume (makeBatch oneRow) [] [] [])
        Relation.ReflTransGen.refl))).2 rfl rfl

/-! ### Workflow, statistics record and checkpoint -/

/-- Modelled from the spec: the StatisticsRecord built by the fit pass —
per categorical column the fitted first-seen vocabulary, per continuous
column the accumulated count/sum/sum-of-squares sufficient statistics
(the Workflow implementation is not part of the example sources). -/
structure Statistics where
  vocabularies : List (String × List String)
  moments : List (String × NumStats)
deriving DecidableEq

/-- Modelled from the spec: the statistics record of a freshly constructed
workflow, before any fit. -/
def Statistics.empty : Statistics := ⟨[], []⟩

/-- Modelled from the spec: a Workflow value — the declared schema, the
ordered operator list, the finalized output column context and the fitted
statistics record. -/
structure Workflow where
  cat_names : List String
  cont_names : List String
  label_name : List String
  ops : List String
  columns_ctx_final : ColumnsCtx
  stats : Statistics
deriving DecidableEq

/-- Modelled from the spec: constructing a Workflow from a declared
schema, as the notebooks do with cat_names/cont_names/label_name. -/
def Workflow.new (cats conts labels : List String) : Workflow :=
  ⟨cats, conts, labels, [], ⟨cats, conts, labels⟩, Statistics.empty⟩

/-- Modelled from the spec: a checkpoint — the durable snapshot of the
finalized column schema, the ordered operator list and the statistics
record, written once after a successful fit. -/
structure Checkpoint where
  schema : ColumnsCtx
  ops : List String
  stats : Statistics
deriving DecidableEq

/-- Modelled from the spec: `save_stats` snapshots the workflow's
finalized schema, operator list and statistics into a checkpoint. -/
def save_stats (w : Workflow) : Checkpoint :=
  ⟨w.columns_ctx_final, w.ops, w.stats⟩

/-- Modelled from the spec: `load_stats` restores a saved checkpoint into
a workflow, replacing the workflow's finalized schema, operator list and
statistics with the saved ones regardless of the construction schema. -/
def load_stats (w : Workflow) (ck : Checkpoint) : Workflow :=
  { w with columns_ctx_final := ck.schema, ops := ck.ops, stats := ck.stats }

/-! ### Embedding sizes -/

/-- Modelled from the spec: the embedding-width rule
`min(cap, round(1.6 * cardinality^0.56))` (the `ops` module is not part of
the example sources), with the cap fixed at 16 by the committed
embedding-size output of the example notebook: the `Store` column of
cardinality 1116 is listed with width 16, while the uncapped rounded value
at 1116 exceeds 52, and every other listed width equals the uncapped
rounded value and stays at most 16. -/
noncomputable def embeddingWidth (card : ℕ) : ℤ :=
  min 16 (round ((1.6 : ℝ) * (card : ℝ) ^ (0.56 : ℝ)))

/-- Modelled from the spec: `get_embedding_sizes` — per categorical column
of the statistics record, the pair (cardinality, embedding width), where
the cardinality counts the fitted vocabulary plus the reserved unknown
slot. -/
noncomputable def get_embedding_sizes (stats : Statistics) : List (String × ℕ × ℤ) :=
  stats.vocabularies.map (fun p => (p.1, p.2.length + 1, embeddingWidth (p.2.length + 1)))

/-- A small fitted statistics record for concrete instantiation. -/
def demoStats : Statistics := ⟨[("StoreType", ["a", "b", "c"])], []⟩

/-- A fitted statistics record with the Store column's 1115-value
vocabulary, matching the cardinality 1116 the notebook output records. -/
def storeStats : Statistics := ⟨[("Store", List.replicate 1115 ("s"))], []⟩

theorem emb_arg_lower :
    (52 : ℝ) ≤ (1.6 : ℝ) * ((1116 : ℕ) : ℝ) ^ (0.56 : ℝ) := by
  have hsqrt33 : Real.sqrt 1089 = 33 := by
    rw [show (1089 : ℝ) = 33 ^ 2 by norm_num]
    exact Real.sqrt_sq (by norm_num)
  have hsqrt : (33 : ℝ) ≤ Real.sqrt 1116 := by
    rw [← hsqrt33]
    exact Real.sqrt_le_sqrt (by norm_num)
  have hhalf : Real.sqrt 1116 = (1116 : ℝ) ^ ((1 : ℝ) / 2) := Real.sqrt_eq_rpow 1116
  have hexp : (1116 : ℝ) ^ ((1 : ℝ) / 2) ≤ (1116 : ℝ) ^ (0.56 : ℝ) :=
    Real.rpow_le_rpow_of_exponent_le (by norm_num) (by norm_num)
  have h33 : (33 : ℝ) ≤ (1116 : ℝ) ^ (0.56 : ℝ) := le_trans (hhalf ▸ hsqrt) hexp
  have hcast : ((1116 : ℕ) : ℝ) = (1116 : ℝ) := by norm_num
  rw [hcast]
  nlinarith [h33]

theorem round_emb_lower :
    (52 : ℤ) ≤ round ((1.6 : ℝ) * ((1116 : ℕ) : ℝ) ^ (0.56 : ℝ)) := by
  rw [round_eq]
  apply Int.le_floor.mpr
  have := emb_arg_lower
  push_cast
  linarith

/-- Counterexample for claim C1: on the fitted record of the Store column
(cardinality 1116) the query returns width 16, but the claimed formula
min(600, round(1.6 * 1116^0.56)) is at least 52, so the claimed pair is
not among the query's results. -/
theorem claim_C1_counterexample :
    (("Store", 1116,
        min 600 (round ((1.6 : ℝ) * ((1116 : ℕ) : ℝ) ^ (0.56 : ℝ))))
          ∉ get_embedding_sizes storeStats)
      ∧ ("Store", 1116, (16 : ℤ)) ∈ get_embedding_sizes storeStats := by
  have hr := round_emb_lower
  have hvoc : (List.replicate 1115 ("s" : String)).length + 1 = 1116 := by
    rw [List.length_replicate]
  have h16 : (16 : ℤ) ⊓ round ((1.6 : ℝ) * ((1116 : ℕ) : ℝ) ^ (0.56 : ℝ)) = 16 :=
    min_eq_left (le_trans (by norm_num) hr)
  constructor
  · intro hmem
    simp only [get_embedding_sizes, storeStats, List.map_cons, List.map_nil,
      List.mem_singleton, Prod.mk.injEq, hvoc, embeddingWidth] at hmem
    rcases hmem with ⟨-, -, hw⟩
    rw [h16] at hw
    have h52 : (52 : ℤ) ≤ 600 ⊓ round ((1.6 : ℝ) * ((1116 : ℕ) : ℝ) ^ (0.56 : ℝ)) :=
      le_min (by norm_num) hr
    rw [hw] at h52
    norm_num at h52
  · simp only [get_embedding_sizes, storeStats, List.map_cons, List.map_nil,
      List.mem_singleton, Prod.mk.injEq, embeddingWidth, hvoc]
    exact ⟨trivial, trivial, h16.symm⟩

/-- Claim C1 (amended: in this NVTabular version the width cap recorded by
the committed notebook output is 16, not 600): for every fitted statistics
record and categorical column in it, the embedding-size query yields the
pair whose cardinality is the fitted vocabulary size plus the reserved
unknown slot and whose width is min(16, round(1.6 * cardinality^0.56));
the query is a pure function of the statistics record, so equal records
(in particular a record reloaded from a checkpoint) yield identical
results. -/
theorem claim_C1 :
    (∀ (stats : Statistics) (c : String) (vs : List String),
        (c, vs) ∈ stats.vocabularies →
          (c, vs.length + 1,
              min 16 (round ((1.6 : ℝ) * ((vs.length + 1 : ℕ) : ℝ) ^ (0.56 : ℝ))))
            ∈ get_embedding_sizes stats)
    ∧ (∀ s₁ s₂ : Statistics, s₁ = s₂ → get_embedding_sizes s₁ = get_embedding_sizes s₂)
    ∧ (∀ (w : Workflow) (cats conts labels : List String),
        get_embedding_sizes (load_stats (Workflow.new cats conts labels) (save_stats w)).stats
          = get_embedding_sizes w.stats) := by
  refine ⟨?_, ?_, ?_⟩
  · intro stats c vs h
    exact List.mem_map.mpr ⟨(c, vs), h, rfl⟩
  · intro s₁ s₂ h
    rw [h]
  · intro w cats conts labels
    rfl

/-- Witness for the amended claim C1 on a concrete record: a vocabulary of
three values gives cardinality 4 and the width formula at 4. -/
theorem claim_C1_witness :
    ("StoreType", 4,
        min 16 (round ((1.6 : ℝ) * ((4 : ℕ) : ℝ) ^ (0.56 : ℝ))))
      ∈ get_embedding_sizes demoStats :=
  claim_C1.1 demoStats ("StoreType") (["a", "b", "c"]) (by decide)

/-- Claim C10: loading a checkpoint saved from a fitted, finalized
workflow into a freshly constructed workflow with any construction schema
(in particular the empty one) restores the finalized column context, the
operator list and the statistics exactly, hence also the embedding
sizes — the construction schema does not affect the loaded result. -/
theorem claim_C10 :
    ∀ (w : Workflow) (cats conts labels : List String),
      (load_stats (Workflow.new cats conts labels) (save_stats w)).columns_ctx_final
          = w.columns_ctx_final
      ∧ (load_stats (Workflow.new cats conts labels) (save_stats w)).ops = w.ops
      ∧ (load_stats (Workflow.new cats conts labels) (save_stats w)).stats = w.stats
      ∧ get_embedding_sizes (load_stats (Workflow.new cats conts labels) (save_stats w)).stats
          = get_embedding_sizes w.stats := by
  intro w cats conts labels
  exact ⟨rfl, rfl, rfl, rfl⟩

/-! ### The apply pass as a restartable traversal -/

/-- Modelled from the spec: one raw chunk, a bounded columnar slice with
its categorical raw values and continuous raw values per column. -/
structure Chunk where
  catData : List (String × List String)
  contData : List (String × List ℚ)
deriving DecidableEq

/-- Modelled from the spec: one transformed chunk — categorical columns
encoded to vocabulary indices, continuous columns normalized. -/
structure TransformedChunk where
  catData : List (String × List ℕ)
  contData : List (String × List ℝ)

/-- The fitted vocabulary recorded for a column (empty when absent). -/
def vocabOf (stats : Statistics) (c : String) : List String :=
  match stats.vocabularies.lookup c with
  | some vs => vs
  | none => []

/-- The accumulated numeric statistics recorded for a column. -/
def momentsOf (stats : Statistics) (c : String) : NumStats :=
  match stats.moments.lookup c with
  | some m => m
  | none => NumStats.empty

/-- Modelled from the spec: the standard deviation derived from the
accumulated sufficient statistics. -/
noncomputable def NumStats.std (s : NumStats) : ℝ := Real.sqrt (s.variance : ℝ)

/-- Modelled from the spec: applying the fixed fitted statistics to one
chunk — Categorify encodes every categorical value (unknown to 0),
Normalize rescales every continuous value by the recorded mean and
standard deviation with the epsilon guard. -/
noncomputable def transformChunk (stats : Statistics) (ch : Chunk) : TransformedChunk :=
  ⟨ch.catData.map (fun p => (p.1, categorify_apply (vocabOf stats p.1) p.2)),
    ch.contData.map (fun p =>
      (p.1, p.2.map (fun x =>
        ((x : ℝ) - ((momentsOf stats p.1).mean : ℝ))
          / max (momentsOf stats p.1).std ((epsilon : ℚ) : ℝ))))⟩

/-- Modelled from the spec: the explicit cursor of a lazy, restartable
traversal over the reader's chunk sequence. -/
structure Cursor where
  remaining : List Chunk

/-- Modelled from the spec: a fresh cursor at the start of the reader's
chunk sequence; each `apply` invocation opens one. -/
def freshCursor (reader : List Chunk) : Cursor := ⟨reader⟩

/-- Modelled from the spec: one step of the apply traversal — transform
the chunk under the cursor and advance, or stop at exhaustion. -/
noncomputable def stepCursor (stats : Statistics) (c : Cursor) :
    Option (TransformedChunk × Cursor) :=
  match c.remaining with
  | [] => none
  | ch :: rest => some (transformChunk stats ch, ⟨rest⟩)

/-- Running an apply traversal to exhaustion, with fuel bounding the
number of steps. -/
noncomputable def runTraversalAux (stats : Statistics) : ℕ → Cursor → List TransformedChunk
  | 0, _ => []
  | fuel + 1, c =>
      match stepCursor stats c with
      | none => []
      | some (out, c2) => out :: runTraversalAux stats fuel c2

/-- Modelled from the spec: `Workflow.apply` — open a fresh cursor over
the reader and emit the transformed chunk sequence. -/
noncomputable def workflow_apply (stats : Statistics) (reader : List Chunk) :
    List TransformedChunk :=
  runTraversalAux stats reader.length (freshCursor reader)

theorem runTraversalAux_eq_map (stats : Statistics) (fuel : ℕ) :
    ∀ l : List Chunk, l.length ≤ fuel →
      runTraversalAux stats fuel ⟨l⟩ = l.map (transformChunk stats) := by
  induction fuel with
  | zero =>
      intro l hl
      have : l = [] := List.length_eq_zero.mp (Nat.le_zero.mp hl)
      subst this
      rfl
  | succ fuel ih =>
      intro l hl
      cases l with
      | nil => rfl
      | cons ch rest =>
          have hrest : rest.length ≤ fuel := by
            simp only [List.length_cons] at hl
            omega
          calc runTraversalAux stats (fuel + 1) ⟨ch :: rest⟩
              = transformChunk stats ch :: runTraversalAux stats fuel ⟨rest⟩ := rfl
            _ = transformChunk stats ch :: rest.map (transformChunk stats) := by
                  rw [ih rest hrest]
            _ = (ch :: rest).map (transformChunk stats) := rfl

/-- Claim C3: every invocation of `apply` with a given statistics record
and reader runs its fresh cursor to exhaustion and emits exactly the
chunkwise transform of the reader sequence — a canonical value depending
only on the statistics and the reader, so repeated invocations are
deterministic, idempotent and yield identical transformed output. -/
theorem claim_C3 :
    ∀ (stats : Statistics) (reader : List Chunk),
      workflow_apply stats reader = reader.map (transformChunk stats) := by
  intro stats reader
  exact runTraversalAux_eq_map stats reader.length reader le_rfl

/-! ### Fatal schema errors and all-or-nothing checkpointing -/

/-- Modelled from the spec: the fatal error taxonomy of the workflow core
(only the schema-mismatch arm is exercised by fit and apply validation). -/
inductive WError
  | SchemaMismatch
  | InvalidValue
  | IOFailure
deriving DecidableEq

/-- All columns the workflow's schema declares. -/
def declaredColumns (w : Workflow) : List String :=
  w.cat_names ++ w.cont_names ++ w.label_name

/-- The raw categorical values of one column across the dataset's chunks. -/
def columnValues (data : List Chunk) (c : String) : List (List String) :=
  data.map (fun ch =>
    match ch.catData.lookup c with
    | some vs => vs
    | none => [])

/-- The raw continuous values of one column across the dataset's chunks. -/
def columnNumValues (data : List Chunk) (c : String) : List (List ℚ) :=
  data.map (fun ch =>
    match ch.contData.lookup c with
    | some vs => vs
    | none => [])

/-- Modelled from the spec: the statistics accumulated by a successful fit
pass — fitted vocabularies for the categorical columns, merged numeric
sufficient statistics for the continuous columns. -/
def fitStatistics (w : Workflow) (data : List Chunk) : Statistics :=
  ⟨w.cat_names.map (fun c => (c, categorify_fit (columnValues data c))),
    w.cont_names.map (fun c => (c, fitNum (columnNumValues data c)))⟩

/-- Modelled from the spec: `fit` validates that every declared column is
present in the input schema before scanning; a missing column is a fatal
SchemaMismatch and no statistics are produced. -/
def workflow_fit (w : Workflow) (inputSchema : List String) (data : List Chunk) :
    Except WError Statistics :=
  if (declaredColumns w).all (fun c => c ∈ inputSchema) then
    .ok (fitStatistics w data)
  else
    .error .SchemaMismatch

/-- Modelled from the spec: fit followed by the caller-invoked checkpoint
persistence — on success the complete new checkpoint replaces the
persisted state, on any error the previously persisted state is left
untouched (a checkpoint is all-or-nothing). -/
def fit_and_save (w : Workflow) (inputSchema : List String) (data : List Chunk)
    (persisted : Option Checkpoint) : Except WError Statistics × Option Checkpoint :=
  match workflow_fit w inputSchema data with
  | .ok s => (.ok s, some (save_stats { w with stats := s }))
  | .error e => (.error e, persisted)

/-- Modelled from the spec: whether a statistics record covers every
column required by the workflow's statistic-requiring operators. -/
def statsCover (stats : Statistics) (w : Workflow) : Bool :=
  w.cat_names.all (fun c => (stats.vocabularies.lookup c).isSome)
    && w.cont_names.all (fun c => (stats.moments.lookup c).isSome)

/-- Modelled from the spec: `apply` validates that the supplied statistics
record covers every statistic-requiring operator's columns; a gap signals
a checkpoint/schema mismatch and is fatal. -/
noncomputable def workflow_apply_checked (w : Workflow) (stats : Statistics)
    (reader : List Chunk) : Except WError (List TransformedChunk) :=
  if statsCover stats w then .ok (workflow_apply stats reader) else .error .SchemaMismatch

/-- Claim C9: fit fails fatally with SchemaMismatch whenever a declared
column is absent from the input schema; apply fails fatally with
SchemaMismatch whenever the supplied statistics record does not cover
every statistic-requiring column; and on every error path of
fit-with-persistence the persisted checkpoint state is left exactly as it
was — checkpoint creation is all-or-nothing. -/
theorem claim_C9 :
    (∀ (w : Workflow) (inputSchema : List String) (data : List Chunk),
        (∃ c, c ∈ declaredColumns w ∧ c ∉ inputSchema) →
          workflow_fit w inputSchema data = .error .SchemaMismatch)
    ∧ (∀ (w : Workflow) (inputSchema : List String) (data : List Chunk)
        (persisted : Option Checkpoint) (e : WError),
        (fit_and_save w inputSchema data persisted).1 = .error e →
          (fit_and_save w inputSchema data persisted).2 = persisted)
    ∧ (∀ (w : Workflow) (stats : Statistics) (reader : List Chunk),
        statsCover stats w = false →
          workflow_apply_checked w stats reader = .error .SchemaMismatch) := by
  refine ⟨?_, ?_, ?_⟩
  · intro w inputSchema data h
    rcases h with ⟨c, hc, hnc⟩
    rw [workflow_fit, if_neg]
    intro hall
    exact hnc (by simpa using (List.all_eq_true.mp hall c hc))
  · intro w inputSchema data persisted e herr
    unfold fit_and_save at herr ⊢
    cases hfit : workflow_fit w inputSchema data with
    | ok s => rw [hfit] at herr; simp at herr
    | error e2 => rfl
  · intro w stats reader h
    rw [workflow_apply_checked, if_neg]
    simp [h]

/-- Witness for claim C9: fitting a workflow that declares StoreType and
Sales against an empty input schema fails with SchemaMismatch. -/
theorem claim_C9_witness :
    workflow_fit (Workflow.new ["StoreType"] [] ["Sales"]) [] [] = .error .SchemaMismatch :=
  claim_C9.1 (Workflow.new ["StoreType"] [] ["Sales"]) [] []
    ⟨("StoreType"), by decide, by decide⟩

end NVTabular
